import Mathlib

/-!
Gamma-ray spectrum matcher: a shallow embedding of `gamma.c` and `utility.c`.

Modelling conventions, used throughout.

* A C `double` is an exact rational number (`ℚ`): the development reasons about
  the arithmetic the program text denotes, without rounding.  `DBL_EPSILON` is its
  IEEE-754 value `2^-52`.
* A `double *` is a view of memory from the pointer: a function `Int → ℚ`, where
  `*(p + k)` is `p k`.  Pointer arithmetic `p + n` is `fun k => p (n + k)`.  A
  pointer that may be `NULL` is an `Option`.
* A C `int` is an `Int`; `%` is the truncating remainder `Int.tmod`.
* An `int *region` argument points at three consecutive entries
  `region[0], region[1], region[2]`; the functions below receive them as
  `left`, `peak` and `right`.
* A `calloc`ed block is a list of zeros of the requested length; `calloc` with a
  negative count fails (returns `NULL`), any other allocation succeeds.
* The loops of `calc_peak_area` and `peak_integrity` carry a fuel argument that the
  caller sets to a bound on the number of iterations; adequacy lemmas show that the
  fuel is never exhausted.  The scan loop of `find_regions` is a fold over its index
  range, and the loop of `match` is a recursion on the block it traverses.
-/

namespace Gamma

/-- The constant `DBL_EPSILON` of `<float.h>`: `2^-52`. -/
def DBL_EPSILON : ℚ := 1 / 4503599627370496

/-! ## `calc_peak_area` (utility.c) -/

/-- The loop `for(int i=1; i<width-1; i+=2) { sum_evens += *(channels + i);
sum_odds += *(channels + i + 1); }` with state `(i, sum_evens, sum_odds)`. -/
def area_loop (channels : Int → ℚ) (width : Int) : Nat → Int → ℚ → ℚ → ℚ × ℚ
  | 0, _, sum_evens, sum_odds => (sum_evens, sum_odds)
  | fuel + 1, i, sum_evens, sum_odds =>
    if i < width - 1 then
      area_loop channels width fuel (i + 2) (sum_evens + channels i) (sum_odds + channels (i + 1))
    else (sum_evens, sum_odds)

/-- The function `calc_peak_area(double *channels, int width)`: Simpson-style area. -/
def calc_peak_area (channels : Int → ℚ) (width : Int) : ℚ :=
  if Int.tmod width 2 ≠ 0 then -1
  else if width = 2 then (channels 0 + channels 1) / 3
  else
    let sums := area_loop channels width width.toNat 1 0 0
    (channels 0 + 4 * sums.1 + 2 * sums.2 + channels (width - 1)) / 3

/-! ## `peak_integrity` (utility.c) -/

/-- The loop `while (*(test+i) >= level && i >= left) i--;`, returning the final `i`. -/
def scan_left (test : Int → ℚ) (level : ℚ) (left : Int) : Nat → Int → Int
  | 0, i => i
  | fuel + 1, i =>
    if test i ≥ level ∧ i ≥ left then scan_left test level left fuel (i - 1) else i

/-- The loop `while (*(test+j) >= level && j <= right) j++;`, returning the final `j`. -/
def scan_right (test : Int → ℚ) (level : ℚ) (right : Int) : Nat → Int → Int
  | 0, j => j
  | fuel + 1, j =>
    if test j ≥ level ∧ j ≤ right then scan_right test level right fuel (j + 1) else j

/-- The width `fwhm = j - i` computed by `peak_integrity` after the two scans at
`half_max`. -/
def fwhm_of (test : Int → ℚ) (left peak right : Int) : Int :=
  let half_max := test peak / 2
  let i := scan_left test half_max left (peak - left + 1).toNat peak
  let j := scan_right test half_max right (right - peak + 1).toNat peak
  j - i

/-- The width `fwlm = j - i` computed by `peak_integrity` after the two further scans
at `low_max`, which continue from where the scans at `half_max` stopped. -/
def fwlm_of (test : Int → ℚ) (left peak right : Int) : Int :=
  let half_max := test peak / 2
  let low_max := test peak / 10
  let i := scan_left test half_max left (peak - left + 1).toNat peak
  let j := scan_right test half_max right (right - peak + 1).toNat peak
  let i := scan_left test low_max left (i - left + 1).toNat i
  let j := scan_right test low_max right (right - j + 1).toNat j
  j - i

/-- The function `peak_integrity(double *test, int *region)`.  The quotient
`(float)fwlm / (float)fwhm` is the exact quotient of the two integers. -/
def peak_integrity (test : Int → ℚ) (left peak right : Int) : ℚ :=
  let full_integrity : ℚ := (right : ℚ) - (left : ℚ) + 1
  let half_max := test peak / 2
  if half_max < DBL_EPSILON then full_integrity
  else
    let low_max := test peak / 10
    if low_max < DBL_EPSILON then full_integrity
    else
      let fwhm := fwhm_of test left peak right
      let fwlm := fwlm_of test left peak right
      if fwhm = 0 then 0
      else if (fwlm : ℚ) / (fwhm : ℚ) ≤ 19 / 10 then full_integrity
      else 0

/-! ## `match_peak` (utility.c) -/

/-- The region width of `match_peak`: `*(region+2) - *region`, incremented when odd. -/
def region_width (left right : Int) : Int :=
  if Int.tmod (right - left) 2 ≠ 0 then right - left + 1 else right - left

/-- The function `match_peak(test, reference, region, spectrum_energy, threshold)`. -/
def match_peak (test reference : Int → ℚ) (left right : Int)
    (spectrum_energy threshold : ℚ) : ℚ :=
  if |spectrum_energy| < DBL_EPSILON then 0
  else
    let rpeak := calc_peak_area (fun k => reference (left + k)) (region_width left right)
    let tpeak := calc_peak_area (fun k => test (left + k)) (region_width left right)
    let lb_rpeak := rpeak - rpeak * threshold
    let ub_rpeak := rpeak + rpeak * threshold
    if |tpeak| > DBL_EPSILON then
      let lb_match : Bool := decide (lb_rpeak / tpeak ≤ 1 + DBL_EPSILON)
      if |ub_rpeak| > DBL_EPSILON then
        let ub_match : Bool := decide (tpeak / ub_rpeak ≤ 1 + DBL_EPSILON)
        if lb_match && ub_match then rpeak / spectrum_energy else 0
      else 0
    else 0

/-! ## `find_regions` (utility.c) -/

/-- The constant `ROUNDS` of `find_regions`. -/
def ROUNDS : Nat := 5

/-- The block `ssd[0]`: `num_channels` zeros, of which the entries `j < num_channels - 2`
are set to `(2 * b) - a - c`, the second difference of the background-subtracted
reference at `j, j+1, j+2`. -/
def ssd_first (reference background : Int → ℚ) (num_channels : Int) : List ℚ :=
  (List.range num_channels.toNat).map fun (j : Nat) =>
    if (j : Int) < num_channels - 2 then
      let a := reference (j : Int) - background (j : Int)
      let b := reference ((j : Int) + 1) - background ((j : Int) + 1)
      let c := reference ((j : Int) + 2) - background ((j : Int) + 2)
      (2 * b) - a - c
    else 0

/-- One smoothing round: the block of `len` zeros in which entry `j` accumulates
`*(ssd[i-1] + j + k)` for `k = 0..6`. -/
def smooth (prev : List ℚ) (len : Nat) : List ℚ :=
  (List.range len).map fun j =>
    (List.range 7).foldl (fun acc k => acc + prev.getD (j + k) 0) 0

/-- The block `ssd[i]`, of length `num_channels - i*6`. -/
def ssd (reference background : Int → ℚ) (num_channels : Int) : Nat → List ℚ
  | 0 => ssd_first reference background num_channels
  | i + 1 => smooth (ssd reference background num_channels i) (num_channels - (i + 1) * 6).toNat

/-- One iteration of the scan loop at loop index `i`, where `ssd_current` points at
entry `i` of the smoothed block.  The state is the list of entries written through
`region_current` so far, in order, and the flag `max_min`. -/
def scan_step (smoothed : List ℚ) (st : List Int × Int) (i : Nat) : List Int × Int :=
  if st.2 = 0 then
    if smoothed.getD i 0 < smoothed.getD (i + 1) 0 then
      (st.1 ++ [(i : Int) + (ROUNDS : Int) * 3], 1)
    else st
  else
    if smoothed.getD i 0 > smoothed.getD (i + 1) 0 then
      (st.1 ++ [(i : Int) + (ROUNDS : Int) * 3], 0)
    else st

/-- The scan loop `for(int i = 0; i < num_channels - (ROUNDS*6) - 3; i++, ssd_current++)`. -/
def scan (smoothed : List ℚ) (num_channels : Int) : List Int × Int :=
  (List.range (num_channels - (ROUNDS : Int) * 6 - 3).toNat).foldl (scan_step smoothed) ([], 0)

/-- The entries written by `find_regions` through `region_current`, in order: those of
the scan loop, then the closing boundary `num_channels - (ROUNDS*3) - 3` when
`max_min == 0 && *ssd_current > *(ssd_current + 1)`, where `ssd_current` has been
advanced once per loop iteration. -/
def find_regions_written (reference background : Int → ℚ) (num_channels : Int) : List Int :=
  let smoothed := ssd reference background num_channels ROUNDS
  let st := scan smoothed num_channels
  let last := (num_channels - (ROUNDS : Int) * 6 - 3).toNat
  if st.2 = 0 ∧ smoothed.getD last 0 > smoothed.getD (last + 1) 0 then
    st.1 ++ [num_channels - (ROUNDS : Int) * 3 - 3]
  else st.1

/-- The function `find_regions(reference, num_channels, regions)` called on a
zero-initialised block `regions` of `num_channels` ints.  The result is `none` when the
function returns `-1` (an allocation `calloc(num_channels - (i*6), ...)` fails), and
`some` of the contents of the block `regions` when it returns `0`: the entries written,
followed by the zeros left untouched. -/
def find_regions (reference background : Int → ℚ) (num_channels : Int) : Option (List Int) :=
  if num_channels - (ROUNDS : Int) * 6 < 0 then none
  else
    let written := find_regions_written reference background num_channels
    some (written ++ List.replicate (num_channels.toNat - written.length) 0)

/-! ## `match` (gamma.c) -/

/-- The loop `while(*(region + 1) != 0) { integrity += ...; confidence += ...; region += 2; }`.
The list is the block `regions` from the pointer `region` on; the state is
`(integrity, confidence)`. -/
def match_loop (test reference : Int → ℚ) (spectrum_energy threshold : ℚ) :
    List Int → ℚ × ℚ → ℚ × ℚ
  | left :: peak :: rest, acc =>
    if peak ≠ 0 then
      match_loop test reference spectrum_energy threshold rest
        (acc.1 + peak_integrity test left peak (rest.headD 0),
         acc.2 + match_peak test reference left (rest.headD 0) spectrum_energy threshold)
    else acc
  | _, acc => acc

/-- The value `spectrum_energy` computed by `match`. -/
def spectrum_energy_of (reference : Int → ℚ) (bins : Int) : ℚ :=
  if Int.tmod bins 2 ≠ 0 then calc_peak_area reference (bins - 1)
  else calc_peak_area reference bins

/-- The pair `(integrity, confidence)` accumulated by `match` once its parameter checks
have passed. -/
def match_scores (test reference background : Int → ℚ) (bins : Int) (threshold : ℚ) : ℚ × ℚ :=
  let spectrum_energy := spectrum_energy_of reference bins
  match find_regions reference background bins with
  | some regions => match_loop test reference spectrum_energy threshold regions (0, 0)
  | none => (0, 0)

/-- The function `match(test, reference, bins, threshold)` of gamma.c with the global
`background`; the result is the returned `int`. -/
def match_spectra (test reference : Option (Int → ℚ)) (background : Int → ℚ) (bins : Int)
    (threshold : ℚ) : Int :=
  match test, reference with
  | none, _ => 0
  | some _, none => 0
  | some test, some reference =>
    if bins ≤ 0 then 0
    else if threshold ≤ 0 ∨ threshold ≥ 1 then 0
    else if (match_scores test reference background bins threshold).2 > 95 / 100 then 1
    else 0

/-! ## Reference definitions, written from the specification -/

/-- The sum of the channels at the odd offsets `1, 3, ..., width - 3`. -/
def odd_offsets_sum (channels : Int → ℚ) (width : Int) : ℚ :=
  ∑ k ∈ (Finset.range (width - 2).toNat).filter (fun k => k % 2 = 1), channels k

/-- The sum of the channels at the even offsets `2, 4, ..., width - 2`. -/
def even_offsets_sum (channels : Int → ℚ) (width : Int) : ℚ :=
  ∑ k ∈ (Finset.range (width - 1).toNat).filter (fun k => k % 2 = 0 ∧ 2 ≤ k), channels k

/-- The specification of `peak_area`: `-1` at an odd width, `(channels[0]+channels[1])/3`
at width 2, and otherwise the composite rule
`(channels[0] + 4·Σ odd offsets + 2·Σ even offsets + channels[width−1]) / 3`. -/
def peak_area_reference (channels : Int → ℚ) (width : Int) : ℚ :=
  if width % 2 = 1 then -1
  else if width = 2 then (channels 0 + channels 1) / 3
  else (channels 0 + 4 * odd_offsets_sum channels width + 2 * even_offsets_sum channels width
        + channels (width - 1)) / 3

/-- The regions consumed from the block written by `find_regions`: overlapping triples
`(left, peak, right)`, advancing two entries per step, up to the first triple whose
middle entry is the end-of-list value 0. -/
def consumed_regions : List Int → List (Int × Int × Int)
  | left :: peak :: rest =>
    if peak ≠ 0 then (left, peak, rest.headD 0) :: consumed_regions rest else []
  | _ => []

/-- An integer rounded up to even. -/
def round_up_even (n : Int) : Int := if n % 2 = 0 then n else n + 1

/-- The area of a region of a spectrum: `calc_peak_area` of the slice starting at `left`
over the width `right - left` rounded up to even. -/
def region_area (spectrum : Int → ℚ) (left right : Int) : ℚ :=
  calc_peak_area (fun k => spectrum (left + k)) (round_up_even (right - left))

/-! ## Sample spectra -/

/-- The all-zero spectrum. -/
def zero_spectrum : Int → ℚ := fun _ => 0

/-- A non-negative sample spectrum: channel `k` holds `|k|`. -/
def ramp : Int → ℚ := fun k => (k.natAbs : ℚ)

/-- The spectrum that is zero except for the single channel `p`, of height `h`. -/
def spike (p : Int) (h : ℚ) : Int → ℚ := fun j => if j = p then h else 0

/-! ## Stopping indices and loop invariants -/

/-- The index `i` is the first index reached scanning left from `start` at which the value
drops below `level` or the bound `left` is passed. -/
def stops_left (test : Int → ℚ) (level : ℚ) (left start i : Int) : Prop :=
  i ≤ start ∧ (test i < level ∨ i < left) ∧ ∀ k, i < k → k ≤ start → level ≤ test k ∧ left ≤ k

/-- The index `j` is the first index reached scanning right from `start` at which the
value drops below `level` or the bound `right` is passed. -/
def stops_right (test : Int → ℚ) (level : ℚ) (right start j : Int) : Prop :=
  start ≤ j ∧ (test j < level ∨ right < j) ∧ ∀ k, start ≤ k → k < j → level ≤ test k ∧ k ≤ right

/-- The state of the scan loop of `find_regions` after its first `m` iterations. -/
def scan_upto (smoothed : List ℚ) (m : Nat) : List Int × Int :=
  (List.range m).foldl (scan_step smoothed) ([], 0)

/-- The invariant of the scan loop after `m` iterations: the entries written are strictly
increasing, each is `i + 15` for a loop index `i < m`, there are at most `m` of them, and
`max_min` is 0 exactly when their number is even. -/
def scan_invariant (m : Nat) (st : List Int × Int) : Prop :=
  st.1.Pairwise (· < ·) ∧ (∀ x ∈ st.1, 15 ≤ x ∧ x < (m : Int) + 15) ∧ st.1.length ≤ m
    ∧ (st.2 = 0 ∨ st.2 = 1) ∧ (st.2 = 0 ↔ st.1.length % 2 = 0)

/-! ## Auxiliary definitions for single-channel peaks -/

/-- Entry `j` of the block `ssd[i]` of `find_regions`, as a function of `i` and `j`. -/
def ssd_at (reference background : Int → ℚ) (num_channels : Int) : Nat → Nat → ℚ
  | 0, j =>
    if (j : Int) < num_channels - 2 then
      (2 * (reference (j + 1) - background (j + 1))) - (reference j - background j)
        - (reference (j + 2) - background (j + 2))
    else 0
  | i + 1, j =>
    ssd_at reference background num_channels i j
      + ssd_at reference background num_channels i (j + 1)
      + ssd_at reference background num_channels i (j + 2)
      + ssd_at reference background num_channels i (j + 3)
      + ssd_at reference background num_channels i (j + 4)
      + ssd_at reference background num_channels i (j + 5)
      + ssd_at reference background num_channels i (j + 6)

/-- The smoothed second difference of a unit single-channel peak at channel 0 after `i`
smoothing rounds, at offset `t` from the peak channel. -/
def kern : Nat → Int → Int
  | 0, t => (if t = -1 then 2 else 0) - (if t = 0 then 1 else 0) - (if t = -2 then 1 else 0)
  | i + 1, t =>
    kern i t + kern i (t + 1) + kern i (t + 2) + kern i (t + 3) + kern i (t + 4)
      + kern i (t + 5) + kern i (t + 6)

/-- The value at offset `t` of a function given by the table of its values at the
offsets `1 - length, ..., 0`, and zero elsewhere. -/
def table_at (table : List Int) (t : Int) : Int :=
  if t < 1 - (table.length : Int) ∨ 0 < t then 0
  else table.getD (t + (table.length : Int) - 1).toNat 0

/-- The non-zero values of `kern i` for `i = 0, ..., 5`. -/
def kern_table : Nat → List Int
  | 0 => [-1, 2, -1]
  | 1 => [-1, 1, 0, 0, 0, 0, 0, 1, -1]
  | 2 => [-1, 0, 0, 0, 0, 0, 0, 2, 0, 0, 0, 0, 0, 0, -1]
  | 3 => [-1, -1, -1, -1, -1, -1, -1, 2, 2, 2, 2, 2, 2, 2, -1, -1, -1, -1, -1, -1, -1]
  | 4 => [-1, -2, -3, -4, -5, -6, -7, -4, -1, 2, 5, 8, 11, 14, 11, 8, 5, 2, -1, -4, -7, -6,
          -5, -4, -3, -2, -1]
  | _ => [-1, -3, -6, -10, -15, -21, -28, -31, -30, -25, -16, -3, 14, 35, 50, 59, 62, 59, 50,
          35, 14, -3, -16, -25, -30, -31, -28, -21, -15, -10, -6, -3, -1]

/-! ## Auxiliary definitions for `match_peak` and `match` -/

/-- The value returned by `match_peak` as a function of the two areas `rpeak` and `tpeak`
it computes, of `spectrum_energy` and of `threshold`. -/
def match_value (rpeak tpeak spectrum_energy threshold : ℚ) : ℚ :=
  if |spectrum_energy| < DBL_EPSILON then 0
  else
    if |tpeak| > DBL_EPSILON then
      if |rpeak + rpeak * threshold| > DBL_EPSILON then
        if (decide ((rpeak - rpeak * threshold) / tpeak ≤ 1 + DBL_EPSILON)
            && decide (tpeak / (rpeak + rpeak * threshold) ≤ 1 + DBL_EPSILON)) = true
        then rpeak / spectrum_energy else 0
      else 0
    else 0

/-- The width that `match` passes to `calc_peak_area` for the spectrum energy: `bins - 1`
when `bins % 2 != 0`, and `bins` otherwise. -/
def energy_width (bins : Int) : Int :=
  if Int.tmod bins 2 ≠ 0 then bins - 1 else bins

/-- The spectrum whose channels all hold `c`. -/
def constant_spectrum (c : ℚ) : Int → ℚ := fun _ => c

/-! ## Array reads of `calc_peak_area`, as made from `match` and `match_peak` -/

/-- The offsets from `channels` read by the loop of `calc_peak_area`: `i` and `i + 1` at
every iteration. -/
def area_loop_reads (width : Int) : Nat → Int → List Int
  | 0, _ => []
  | fuel + 1, i =>
    if i < width - 1 then i :: (i + 1) :: area_loop_reads width fuel (i + 2) else []

/-- The offsets from `channels` read by `calc_peak_area(channels, width)`: none at an odd
width, `0, 1` at width 2, and otherwise those of the loop followed by `0` and
`width - 1`. -/
def calc_peak_area_reads (width : Int) : List Int :=
  if Int.tmod width 2 ≠ 0 then []
  else if width = 2 then [0, 1]
  else area_loop_reads width width.toNat 1 ++ [0, width - 1]

/-- The indices of `reference` (and of `test`) read by `match_peak`: those of its calls
`calc_peak_area(reference + *region, region_width)`, unless it returns early. -/
def match_peak_reads (left right : Int) (spectrum_energy : ℚ) : List Int :=
  if |spectrum_energy| < DBL_EPSILON then []
  else (calc_peak_area_reads (region_width left right)).map fun k => left + k

/-- The indices of `reference` that `match` reads through `calc_peak_area`: for the
spectrum energy, then in `match_peak` for every consumed region. -/
def match_area_reads (reference background : Int → ℚ) (bins : Int) : List Int :=
  calc_peak_area_reads (energy_width bins)
    ++ match find_regions reference background bins with
       | some regions =>
         (consumed_regions regions).flatMap fun r =>
           match_peak_reads r.1 r.2.2 (spectrum_energy_of reference bins)
       | none => []

/-! ## Auxiliary definitions for symmetric peaks -/

/-- A smoothed second difference `G`, as a function of the offset from the peak channel,
has the shape of a single peak: it falls up to offset -25, rises up to -16, falls up
to -7 and does not fall afterwards. -/
def single_peak_shape (G : Int → ℚ) : Prop :=
  (∀ t : Int, t < -25 → G (t + 1) ≤ G t)
    ∧ G (-25) < G (-25 + 1)
    ∧ (∀ t : Int, -24 ≤ t → t < -16 → G t ≤ G (t + 1))
    ∧ G (-16 + 1) < G (-16)
    ∧ (∀ t : Int, -15 ≤ t → t < -7 → G (t + 1) ≤ G t)
    ∧ G (-7) < G (-7 + 1)
    ∧ (∀ t : Int, -6 ≤ t → G t ≤ G (t + 1))

/-- A symmetric peak of 21 channels with its maximum 30 at channel 35: the channels 25
to 45 hold `30 - |j - 35|`, all others 0. -/
def cut_triangle : Int → ℚ :=
  fun j => if 25 ≤ j ∧ j ≤ 45 then 30 - ((j - 35).natAbs : ℚ) else 0

/-! ## Theorems: `calc_peak_area` -/

/-- The truncating remainder by 2 vanishes exactly when the floor remainder does. -/
theorem tmod_two_eq_zero_iff (a : Int) : Int.tmod a 2 = 0 ↔ a % 2 = 0 := by
  constructor
  · intro h
    exact Int.emod_eq_zero_of_dvd (Int.dvd_of_tmod_eq_zero h)
  · intro h
    exact Int.tmod_eq_zero_of_dvd (Int.dvd_of_emod_eq_zero h)

/-- The accumulation loop of `calc_peak_area`, started at the odd offset `2a + 1` with
enough fuel for the `r` remaining iterations, adds the next `r` odd-offset channels to
`sum_evens` and the next `r` even-offset channels to `sum_odds`. -/
theorem area_loop_eq (channels : Int → ℚ) (m : Nat) :
    ∀ (r fuel a : Nat) (se so : ℚ), a + r = m → r ≤ fuel →
      area_loop channels (2 * (m : Int) + 2) fuel (2 * (a : Int) + 1) se so
        = (se + ∑ t ∈ Finset.range r, channels (2 * ((a : Int) + t) + 1),
           so + ∑ t ∈ Finset.range r, channels (2 * ((a : Int) + t) + 2)) := by
  intro r
  induction r with
  | zero =>
    intro fuel a se so ha _
    have hi : ¬ (2 * (a : Int) + 1 < 2 * (m : Int) + 2 - 1) := by omega
    cases fuel with
    | zero => simp [area_loop]
    | succ f => simp [area_loop, hi]
  | succ r ih =>
    intro fuel a se so ha hf
    obtain ⟨f, rfl⟩ : ∃ f, fuel = f + 1 := ⟨fuel - 1, by omega⟩
    have hi : 2 * (a : Int) + 1 < 2 * (m : Int) + 2 - 1 := by omega
    have hnext : 2 * (a : Int) + 1 + 2 = 2 * ((a + 1 : Nat) : Int) + 1 := by push_cast; ring
    rw [area_loop, if_pos hi, hnext, ih f (a + 1) _ _ (by omega) (by omega)]
    rw [Finset.sum_range_succ' _ r, Finset.sum_range_succ' _ r]
    have e1 : ∀ t : Nat, 2 * (((a + 1 : Nat) : Int) + t) + 1 = 2 * ((a : Int) + ((t + 1 : Nat) : Int)) + 1 := by
      intro t; push_cast; ring
    have e2 : ∀ t : Nat, 2 * (((a + 1 : Nat) : Int) + t) + 2 = 2 * ((a : Int) + ((t + 1 : Nat) : Int)) + 2 := by
      intro t; push_cast; ring
    simp only [e1, e2]
    have e3 : 2 * (a : Int) + 1 + 1 = 2 * ((a : Int) + ((0 : Nat) : Int)) + 2 := by push_cast; ring
    have e4 : 2 * (a : Int) + 1 = 2 * ((a : Int) + ((0 : Nat) : Int)) + 1 := by push_cast; ring
    rw [e3]
    nth_rewrite 1 [e4]
    ext <;> simp <;> ring

/-- Adequacy of the fuel of `area_loop`: once the fuel covers the remaining iterations,
more fuel does not change the result. -/
theorem area_loop_fuel (channels : Int → ℚ) (width : Int) :
    ∀ (fuel : Nat) (i : Int) (se so : ℚ) (extra : Nat), width - 1 - i ≤ 2 * (fuel : Int) →
      area_loop channels width (fuel + extra) i se so = area_loop channels width fuel i se so := by
  intro fuel
  induction fuel with
  | zero =>
    intro i se so extra h
    have hi : ¬ (i < width - 1) := by omega
    cases extra with
    | zero => rfl
    | succ e => simp [area_loop, hi]
  | succ f ih =>
    intro i se so extra h
    have e : f + 1 + extra = (f + extra) + 1 := by omega
    rw [e]
    by_cases hi : i < width - 1
    · simp only [area_loop, if_pos hi]
      exact ih (i + 2) _ _ extra (by push_cast at h; omega)
    · simp only [area_loop, if_neg hi]

/-- The fuel `width` given to the loop by `calc_peak_area` is adequate for every width. -/
theorem calc_peak_area_fuel (channels : Int → ℚ) (width : Int) (extra : Nat) :
    area_loop channels width (width.toNat + extra) 1 0 0
      = area_loop channels width width.toNat 1 0 0 :=
  area_loop_fuel channels width width.toNat 1 0 0 extra (by omega)

/-- The odd offsets below `2m` are `2t + 1` for `t < m`. -/
theorem odd_offsets_sum_eq (channels : Int → ℚ) (m : Nat) :
    odd_offsets_sum channels (2 * (m : Int) + 2) = ∑ t ∈ Finset.range m, channels (2 * (t : Int) + 1) := by
  have hw : (2 * (m : Int) + 2 - 2).toNat = 2 * m := by omega
  unfold odd_offsets_sum
  rw [hw, Finset.sum_filter]
  clear hw
  induction m with
  | zero => simp
  | succ m ih =>
    have h2 : 2 * (m + 1) = 2 * m + 1 + 1 := by ring
    rw [h2, Finset.sum_range_succ, Finset.sum_range_succ, ih, Finset.sum_range_succ]
    have p1 : ¬ ((2 * m) % 2 = 1) := by omega
    have p2 : (2 * m + 1) % 2 = 1 := by omega
    rw [if_neg p1, if_pos p2]
    push_cast
    ring

/-- The even offsets from 2 to `2m` are `2t + 2` for `t < m`. -/
theorem even_offsets_sum_eq (channels : Int → ℚ) (m : Nat) :
    even_offsets_sum channels (2 * (m : Int) + 2) = ∑ t ∈ Finset.range m, channels (2 * (t : Int) + 2) := by
  have hw : (2 * (m : Int) + 2 - 1).toNat = 2 * m + 1 := by omega
  unfold even_offsets_sum
  rw [hw, Finset.sum_filter]
  clear hw
  induction m with
  | zero => simp
  | succ m ih =>
    have h2 : 2 * (m + 1) + 1 = 2 * m + 1 + 1 + 1 := by ring
    rw [h2, Finset.sum_range_succ, Finset.sum_range_succ, ih, Finset.sum_range_succ]
    have p1 : ¬ ((2 * m + 1) % 2 = 0 ∧ 2 ≤ 2 * m + 1) := by omega
    have p2 : (2 * m + 1 + 1) % 2 = 0 ∧ 2 ≤ 2 * m + 1 + 1 := by omega
    rw [if_neg p1, if_pos p2]
    push_cast
    ring

/-- The closed form of `calc_peak_area` at an even width `2m + 2`, `m ≥ 1`. -/
theorem calc_peak_area_even (channels : Int → ℚ) (m : Nat) (hm : 1 ≤ m) :
    calc_peak_area channels (2 * (m : Int) + 2)
      = (channels 0 + 4 * (∑ t ∈ Finset.range m, channels (2 * (t : Int) + 1))
          + 2 * (∑ t ∈ Finset.range m, channels (2 * (t : Int) + 2))
          + channels (2 * (m : Int) + 1)) / 3 := by
  have hmod : Int.tmod (2 * (m : Int) + 2) 2 = 0 := (tmod_two_eq_zero_iff _).2 (by omega)
  have hne : ¬ (2 * (m : Int) + 2 = 2) := by omega
  have hloop := area_loop_eq channels m m (2 * (m : Int) + 2).toNat 0 0 0 (by omega) (by omega)
  simp only [Nat.cast_zero, mul_zero, zero_add] at hloop
  unfold calc_peak_area
  have hnn : ¬ (Int.tmod (2 * (m : Int) + 2) 2 ≠ 0) := by simp [hmod]
  rw [if_neg hnn, if_neg hne]
  simp only [hloop]
  have : 2 * (m : Int) + 2 - 1 = 2 * m + 1 := by ring
  rw [this]

/-- C3: for every channel sequence and every width of at least 2, `calc_peak_area`
equals the reference definition: `-1` at an odd width, `(channels[0]+channels[1])/3` at
width 2, and the composite rule over the odd and even offsets otherwise. -/
theorem calc_peak_area_eq_reference (channels : Int → ℚ) (width : Int) (hw : 2 ≤ width) :
    calc_peak_area channels width = peak_area_reference channels width := by
  unfold peak_area_reference
  by_cases hodd : width % 2 = 1
  · have : Int.tmod width 2 ≠ 0 := by
      intro h
      have := (tmod_two_eq_zero_iff width).1 h
      omega
    rw [if_pos hodd]
    unfold calc_peak_area
    rw [if_pos this]
  · rw [if_neg hodd]
    by_cases h2 : width = 2
    · have hmod : ¬ (Int.tmod width 2 ≠ 0) := by subst h2; decide
      rw [if_pos h2]
      unfold calc_peak_area
      rw [if_neg hmod, if_pos h2]
    · rw [if_neg h2]
      obtain ⟨m, hm1, rfl⟩ : ∃ m : Nat, 1 ≤ m ∧ width = 2 * (m : Int) + 2 :=
        ⟨((width - 2) / 2).toNat, by omega, by omega⟩
      rw [calc_peak_area_even channels m hm1, odd_offsets_sum_eq, even_offsets_sum_eq]
      have : 2 * (m : Int) + 2 - 1 = 2 * m + 1 := by ring
      rw [this]

/-! ## Theorems: `match` -/

/-- C7: for `bins <= 0`, `threshold <= 0` or `threshold >= 1`, `match` returns 0 whatever
the test, reference and background spectra are. -/
theorem match_invalid_input_returns_zero (test reference : Option (Int → ℚ))
    (background : Int → ℚ) (bins : Int) (threshold : ℚ)
    (h : bins ≤ 0 ∨ threshold ≤ 0 ∨ 1 ≤ threshold) :
    match_spectra test reference background bins threshold = 0 := by
  unfold match_spectra
  cases test with
  | none => rfl
  | some t =>
    cases reference with
    | none => rfl
    | some r =>
      by_cases hb : bins ≤ 0
      · simp [hb]
      · have ht : threshold ≤ 0 ∨ threshold ≥ 1 := by
          rcases h with h | h | h
          · exact absurd h hb
          · exact Or.inl h
          · exact Or.inr h
        simp [hb, ht]

/-- Instance of C7 at the boundary `threshold = 1`. -/
theorem match_invalid_input_returns_zero_witness :
    match_spectra (some zero_spectrum) (some zero_spectrum) zero_spectrum 100 1 = 0 :=
  match_invalid_input_returns_zero (some zero_spectrum) (some zero_spectrum) zero_spectrum 100 1
    (Or.inr (Or.inr (le_refl 1)))

/-- The width computed by `match_peak` is even, for all integers `left` and `right`. -/
theorem region_width_even (left right : Int) : Int.tmod (region_width left right) 2 = 0 := by
  unfold region_width
  by_cases h : Int.tmod (right - left) 2 ≠ 0
  · rw [if_pos h]
    rw [tmod_two_eq_zero_iff]
    have : ¬ ((right - left) % 2 = 0) := fun h0 => h ((tmod_two_eq_zero_iff _).2 h0)
    omega
  · rw [if_neg h]
    exact not_not.1 h

/-- Instance of C3 at width 6 on the spectrum `ramp`. -/
theorem calc_peak_area_eq_reference_witness :
    (2 : Int) ≤ 6 ∧ calc_peak_area ramp 6 = peak_area_reference ramp 6 :=
  ⟨by decide, calc_peak_area_eq_reference ramp 6 (by decide)⟩

/-! ## Theorems: `match_peak` -/

/-- The width computed by `match_peak` is `right - left` rounded up to even. -/
theorem region_width_eq_round_up (left right : Int) :
    region_width left right = round_up_even (right - left) := by
  unfold region_width round_up_even
  by_cases h : (right - left) % 2 = 0
  · have : ¬ (Int.tmod (right - left) 2 ≠ 0) := by simp [(tmod_two_eq_zero_iff _).2 h]
    rw [if_neg this, if_pos h]
  · have : Int.tmod (right - left) 2 ≠ 0 := fun h0 => h ((tmod_two_eq_zero_iff _).1 h0)
    rw [if_pos this, if_neg h]

/-- Adequacy of the fuel of `scan_left`: with fuel at least `start - left + 1` the loop
returns the first index at which its condition fails. -/
theorem scan_left_stops (test : Int → ℚ) (level : ℚ) (left : Int) :
    ∀ (fuel : Nat) (start : Int), start - left + 1 ≤ fuel →
      stops_left test level left start (scan_left test level left fuel start) := by
  intro fuel
  induction fuel with
  | zero =>
    intro start h
    refine ⟨le_refl _, Or.inr ?_, ?_⟩
    · simp only [scan_left]; omega
    · intro k h1 h2; simp only [scan_left] at h1; omega
  | succ f ih =>
    intro start h
    by_cases hc : test start ≥ level ∧ start ≥ left
    · have hrec := ih (start - 1) (by push_cast at h; omega)
      simp only [scan_left, if_pos hc]
      obtain ⟨r1, r2, r3⟩ := hrec
      refine ⟨by omega, r2, ?_⟩
      intro k h1 h2
      by_cases hk : k = start
      · subst hk; exact ⟨hc.1, hc.2⟩
      · exact r3 k h1 (by omega)
    · simp only [scan_left, if_neg hc]
      refine ⟨le_refl _, ?_, ?_⟩
      · by_cases hl : start < left
        · exact Or.inr hl
        · left
          by_contra hlt
          exact hc ⟨not_lt.1 hlt, not_lt.1 hl⟩
      · intro k h1 h2; omega

/-- Adequacy of the fuel of `scan_right`: with fuel at least `right - start + 1` the loop
returns the first index at which its condition fails. -/
theorem scan_right_stops (test : Int → ℚ) (level : ℚ) (right : Int) :
    ∀ (fuel : Nat) (start : Int), right - start + 1 ≤ fuel →
      stops_right test level right start (scan_right test level right fuel start) := by
  intro fuel
  induction fuel with
  | zero =>
    intro start h
    refine ⟨le_refl _, Or.inr ?_, ?_⟩
    · simp only [scan_right]; omega
    · intro k h1 h2; simp only [scan_right] at h2; omega
  | succ f ih =>
    intro start h
    by_cases hc : test start ≥ level ∧ start ≤ right
    · have hrec := ih (start + 1) (by push_cast at h; omega)
      simp only [scan_right, if_pos hc]
      obtain ⟨r1, r2, r3⟩ := hrec
      refine ⟨by omega, r2, ?_⟩
      intro k h1 h2
      by_cases hk : k = start
      · subst hk; exact ⟨hc.1, hc.2⟩
      · exact r3 k (by omega) h2
    · simp only [scan_right, if_neg hc]
      refine ⟨le_refl _, ?_, ?_⟩
      · by_cases hl : right < start
        · exact Or.inr hl
        · left
          by_contra hlt
          exact hc ⟨not_lt.1 hlt, not_lt.1 hl⟩
      · intro k h1 h2; omega

/-- A scan to the left at a lower level, continued from where a scan at a higher level
stopped, stops where the scan at the lower level from the start stops. -/
theorem stops_left_extend (test : Int → ℚ) (level level2 : ℚ) (left start mid i : Int)
    (hle : level2 ≤ level) (h1 : stops_left test level left start mid)
    (h2 : stops_left test level2 left mid i) : stops_left test level2 left start i := by
  obtain ⟨a1, _, a3⟩ := h1
  obtain ⟨b1, b2, b3⟩ := h2
  refine ⟨le_trans b1 a1, b2, ?_⟩
  intro k hk1 hk2
  by_cases hm : k ≤ mid
  · exact b3 k hk1 hm
  · have := a3 k (by omega) hk2
    exact ⟨le_trans hle this.1, this.2⟩

/-- A scan to the right at a lower level, continued from where a scan at a higher level
stopped, stops where the scan at the lower level from the start stops. -/
theorem stops_right_extend (test : Int → ℚ) (level level2 : ℚ) (right start mid j : Int)
    (hle : level2 ≤ level) (h1 : stops_right test level right start mid)
    (h2 : stops_right test level2 right mid j) : stops_right test level2 right start j := by
  obtain ⟨a1, _, a3⟩ := h1
  obtain ⟨b1, b2, b3⟩ := h2
  refine ⟨le_trans a1 b1, b2, ?_⟩
  intro k hk1 hk2
  by_cases hm : mid ≤ k
  · exact b3 k hm hk2
  · have := a3 k hk1 (by omega)
    exact ⟨le_trans hle this.1, this.2⟩

/-- The four stopping indices of `peak_integrity` on a peak large enough to evaluate. -/
theorem peak_integrity_scans (test : Int → ℚ) (left peak right : Int)
    (hpos : 0 ≤ test peak) :
    ∃ i j i2 j2 : Int,
      stops_left test (test peak / 2) left peak i ∧ stops_right test (test peak / 2) right peak j
      ∧ stops_left test (test peak / 10) left peak i2
      ∧ stops_right test (test peak / 10) right peak j2
      ∧ fwhm_of test left peak right = j - i ∧ fwlm_of test left peak right = j2 - i2 := by
  have hle : test peak / 10 ≤ test peak / 2 := by linarith
  have s1 := scan_left_stops test (test peak / 2) left (peak - left + 1).toNat peak
    (Int.self_le_toNat _)
  have s2 := scan_right_stops test (test peak / 2) right (right - peak + 1).toNat peak
    (Int.self_le_toNat _)
  have s3 := scan_left_stops test (test peak / 10) left
    (scan_left test (test peak / 2) left (peak - left + 1).toNat peak - left + 1).toNat _
    (Int.self_le_toNat _)
  have s4 := scan_right_stops test (test peak / 10) right
    (right - scan_right test (test peak / 2) right (right - peak + 1).toNat peak + 1).toNat _
    (Int.self_le_toNat _)
  exact ⟨_, _, _, _, s1, s2, stops_left_extend _ _ _ _ _ _ _ hle s1 s3,
    stops_right_extend _ _ _ _ _ _ _ hle s2 s4, rfl, rfl⟩

/-- The scan loop runs `num_channels - 33` iterations. -/
theorem scan_eq_scan_upto (smoothed : List ℚ) (num_channels : Int) :
    scan smoothed num_channels = scan_upto smoothed (num_channels - 33).toNat := by
  unfold scan scan_upto
  have : num_channels - (ROUNDS : Int) * 6 - 3 = num_channels - 33 := by
    simp only [ROUNDS]; push_cast; ring
  rw [this]

/-- One more iteration of the scan loop. -/
theorem scan_upto_succ (smoothed : List ℚ) (m : Nat) :
    scan_upto smoothed (m + 1) = scan_step smoothed (scan_upto smoothed m) m := by
  unfold scan_upto
  rw [List.range_succ, List.foldl_append]
  rfl

/-- An iteration of the scan loop at index `i` leaves the state unchanged, or writes
`i + 15` and flips `max_min`. -/
theorem scan_step_cases (smoothed : List ℚ) (st : List Int × Int) (i : Nat) :
    scan_step smoothed st i = st
      ∨ (st.2 = 0 ∧ scan_step smoothed st i = (st.1 ++ [(i : Int) + 15], 1))
      ∨ (st.2 ≠ 0 ∧ scan_step smoothed st i = (st.1 ++ [(i : Int) + 15], 0)) := by
  have h15 : (ROUNDS : Int) * 3 = 15 := by simp only [ROUNDS]; norm_num
  unfold scan_step
  rw [h15]
  by_cases h0 : st.2 = 0
  · rw [if_pos h0]
    split
    · exact Or.inr (Or.inl ⟨h0, rfl⟩)
    · exact Or.inl rfl
  · rw [if_neg h0]
    split
    · exact Or.inr (Or.inr ⟨h0, rfl⟩)
    · exact Or.inl rfl

/-- The invariant is preserved by an iteration of the scan loop. -/
theorem scan_invariant_step (smoothed : List ℚ) (m : Nat) (st : List Int × Int)
    (h : scan_invariant m st) : scan_invariant (m + 1) (scan_step smoothed st m) := by
  obtain ⟨hs, hb, hl, hf, hp⟩ := h
  have happ : (st.1 ++ [(m : Int) + 15]).Pairwise (· < ·)
      ∧ (∀ x ∈ st.1 ++ [(m : Int) + 15], 15 ≤ x ∧ x < ((m + 1 : Nat) : Int) + 15)
      ∧ (st.1 ++ [(m : Int) + 15]).length ≤ m + 1 := by
    refine ⟨?_, ?_, ?_⟩
    · rw [List.pairwise_append]
      refine ⟨hs, List.pairwise_singleton _ _, ?_⟩
      intro a ha b hb2
      rw [List.mem_singleton] at hb2
      subst hb2
      exact (hb a ha).2
    · intro x hx
      rw [List.mem_append, List.mem_singleton] at hx
      rcases hx with hx | hx
      · have := hb x hx
        push_cast
        omega
      · subst hx
        push_cast
        omega
    · rw [List.length_append, List.length_singleton]
      omega
  rcases scan_step_cases smoothed st m with e | ⟨h0, e⟩ | ⟨h0, e⟩
  · rw [e]
    refine ⟨hs, ?_, by omega, hf, hp⟩
    intro x hx
    have := hb x hx
    push_cast
    omega
  · rw [e]
    obtain ⟨a1, a2, a3⟩ := happ
    refine ⟨a1, a2, a3, Or.inr rfl, ?_⟩
    have hev := hp.1 h0
    simp only [List.length_append, List.length_singleton]
    constructor
    · intro h; exact absurd h (by decide)
    · intro h; omega
  · rw [e]
    obtain ⟨a1, a2, a3⟩ := happ
    refine ⟨a1, a2, a3, Or.inl rfl, ?_⟩
    have hodd : ¬ (st.1.length % 2 = 0) := fun h => h0 (hp.2 h)
    simp only [List.length_append, List.length_singleton]
    constructor
    · intro _; omega
    · intro _; trivial

/-- The invariant holds after every number of iterations. -/
theorem scan_upto_invariant (smoothed : List ℚ) (m : Nat) :
    scan_invariant m (scan_upto smoothed m) := by
  induction m with
  | zero =>
    refine ⟨List.Pairwise.nil, ?_, le_refl _, Or.inl rfl, ?_⟩
    · intro x hx; exact absurd hx (List.not_mem_nil _)
    · constructor
      · intro _; rfl
      · intro _; rfl
  | succ m ih =>
    rw [scan_upto_succ]
    exact scan_invariant_step smoothed m _ ih

/-- The entries written by `find_regions` are those of the scan loop, followed by the
closing boundary `bins - 18` only if the loop ended with `max_min == 0`. -/
theorem find_regions_written_cases (reference background : Int → ℚ) (bins : Int) :
    find_regions_written reference background bins
        = (scan_upto (ssd reference background bins ROUNDS) (bins - 33).toNat).1
      ∨ ((scan_upto (ssd reference background bins ROUNDS) (bins - 33).toNat).2 = 0
          ∧ find_regions_written reference background bins
            = (scan_upto (ssd reference background bins ROUNDS) (bins - 33).toNat).1
                ++ [bins - 18]) := by
  have h18 : bins - (ROUNDS : Int) * 3 - 3 = bins - 18 := by
    simp only [ROUNDS]; push_cast; ring
  unfold find_regions_written
  simp only [scan_eq_scan_upto, h18]
  split
  · rename_i h
    exact Or.inr ⟨h.1, rfl⟩
  · exact Or.inl rfl

/-- For `bins >= 33` the entries written are strictly increasing, lie in `[15, bins-18]`
and number at most `bins - 32`. -/
theorem find_regions_written_sorted_bounded (reference background : Int → ℚ) (bins : Int)
    (hb : 33 ≤ bins) :
    (find_regions_written reference background bins).Pairwise (· < ·)
      ∧ (∀ x ∈ find_regions_written reference background bins, 15 ≤ x ∧ x ≤ bins - 18)
      ∧ ((find_regions_written reference background bins).length : Int) ≤ bins - 32 := by
  obtain ⟨hs, hbd, hl, _, _⟩ :=
    scan_upto_invariant (ssd reference background bins ROUNDS) (bins - 33).toNat
  have hm : (((bins - 33).toNat : Nat) : Int) = bins - 33 := Int.toNat_of_nonneg (by omega)
  rcases find_regions_written_cases reference background bins with e | ⟨_, e⟩
  · rw [e]
    refine ⟨hs, ?_, by omega⟩
    intro x hx
    have := hbd x hx
    omega
  · rw [e]
    refine ⟨?_, ?_, ?_⟩
    · rw [List.pairwise_append]
      refine ⟨hs, List.pairwise_singleton _ _, ?_⟩
      intro a ha b hb2
      rw [List.mem_singleton] at hb2
      subst hb2
      have := hbd a ha
      omega
    · intro x hx
      rw [List.mem_append, List.mem_singleton] at hx
      rcases hx with hx | hx
      · have := hbd x hx
        omega
      · subst hx
        omega
    · rw [List.length_append, List.length_singleton]
      push_cast
      omega

/-- C6: for `bins >= 33` the entries written by `find_regions` are strictly increasing and
each lies in `[15, bins-18]`; hence the list is non-decreasing, stays within `[0, bins)`,
has at most `bins - 32` entries, contains no 0, and fits the `bins`-sized zero-initialised
block with at least one trailing 0. -/
theorem find_regions_entries_increasing (reference background : Int → ℚ) (bins : Int)
    (hb : 33 ≤ bins) :
    (find_regions_written reference background bins).Pairwise (· < ·)
      ∧ (∀ x ∈ find_regions_written reference background bins, 15 ≤ x ∧ x ≤ bins - 18)
      ∧ (find_regions_written reference background bins).Pairwise (· ≤ ·)
      ∧ (∀ x ∈ find_regions_written reference background bins, 0 ≤ x ∧ x < bins)
      ∧ ((find_regions_written reference background bins).length : Int) ≤ bins - 32
      ∧ (∀ x ∈ find_regions_written reference background bins, x ≠ 0)
      ∧ (∃ zeros : Nat, 0 < zeros
          ∧ find_regions reference background bins
            = some (find_regions_written reference background bins ++ List.replicate zeros 0)
          ∧ (find_regions_written reference background bins ++ List.replicate zeros 0).length
            = bins.toNat) := by
  obtain ⟨hs, hbd, hl⟩ := find_regions_written_sorted_bounded reference background bins hb
  refine ⟨hs, hbd, hs.imp (fun h => le_of_lt h), ?_, hl, ?_, ?_⟩
  · intro x hx
    have := hbd x hx
    omega
  · intro x hx
    have := hbd x hx
    omega
  · refine ⟨bins.toNat - (find_regions_written reference background bins).length, by omega, ?_, ?_⟩
    · unfold find_regions
      have : ¬ (bins - (ROUNDS : Int) * 6 < 0) := by
        simp only [ROUNDS]; push_cast; omega
      rw [if_neg this]
    · rw [List.length_append, List.length_replicate]
      omega

/-- Instance of C6 at 43 bins, a single-channel reference and zero background. -/
theorem find_regions_entries_increasing_witness :
    (33 : Int) ≤ 43
      ∧ (find_regions_written (spike 17 1) zero_spectrum 43).Pairwise (· < ·)
      ∧ (∀ x ∈ find_regions_written (spike 17 1) zero_spectrum 43, 15 ≤ x ∧ x ≤ 43 - 18)
      ∧ ((find_regions_written (spike 17 1) zero_spectrum 43).length : Int) ≤ 43 - 32 :=
  ⟨by decide,
    (find_regions_entries_increasing (spike 17 1) zero_spectrum 43 (by decide)).1,
    (find_regions_entries_increasing (spike 17 1) zero_spectrum 43 (by decide)).2.1,
    (find_regions_entries_increasing (spike 17 1) zero_spectrum 43 (by decide)).2.2.2.2.1⟩

/-- C5, evaluated at a failing input: with 43 bins, zero background and a reference that
is zero except for channel 17, `find_regions` writes the two entries `15, 16`; the scan
loop ends seeking a minimum (`max_min == 0`) and no closing boundary is appended, so the
list has an even number of entries and `match` consumes the triple `(15, 16, 0)`, whose
right boundary is the end-of-list value 0. -/
theorem find_regions_unclosed_list :
    find_regions (spike 17 1) zero_spectrum 43 = some ([15, 16] ++ List.replicate 41 0)
      ∧ consumed_regions ([15, 16] ++ List.replicate 41 0) = [(15, 16, 0)]
      ∧ (scan (ssd (spike 17 1) zero_spectrum 43 ROUNDS) 43).2 = 0 := by
  decide!

/-! ## Theorems: single-channel peaks -/

/-- Reading a list built by mapping over a range. -/
theorem getD_map_range {α : Type} (f : Nat → α) (N j : Nat) (d : α) (h : j < N) :
    ((List.range N).map f).getD j d = f j := by
  simp [List.getD_eq_getElem?_getD, List.getElem?_range h]

/-- Inside the block `ssd[i]`, the list model and the function `ssd_at` agree. -/
theorem ssd_getD (reference background : Int → ℚ) (num_channels : Int) :
    ∀ (i j : Nat), (j : Int) < num_channels - 6 * (i : Int) →
      (ssd reference background num_channels i).getD j 0
        = ssd_at reference background num_channels i j := by
  intro i
  induction i with
  | zero =>
    intro j hj
    have hj2 : j < num_channels.toNat := by omega
    simp only [ssd, ssd_first]
    rw [getD_map_range _ _ _ _ hj2]
    simp only [ssd_at]
  | succ i ih =>
    intro j hj
    push_cast at hj
    have hj2 : j < (num_channels - ((i : Int) + 1) * 6).toNat := by omega
    have hr : List.range 7 = [0, 1, 2, 3, 4, 5, 6] := by decide
    simp only [ssd, smooth]
    rw [getD_map_range _ _ _ _ hj2, hr]
    simp only [List.foldl, ssd_at]
    rw [ih (j + 0) (by push_cast; omega), ih (j + 1) (by push_cast; omega),
      ih (j + 2) (by push_cast; omega), ih (j + 3) (by push_cast; omega),
      ih (j + 4) (by push_cast; omega), ih (j + 5) (by push_cast; omega),
      ih (j + 6) (by push_cast; omega)]
    simp

/-- The blocks `ssd[i]` of a single-channel peak of height `h` at `p`, with zero
background, hold `h` times the kernel shifted to `p`. -/
theorem ssd_at_spike (p : Int) (h : ℚ) (num_channels : Int) (hp : p ≤ num_channels - 3) :
    ∀ (i j : Nat), ssd_at (spike p h) zero_spectrum num_channels i j
      = h * ((kern i ((j : Int) - p) : Int) : ℚ) := by
  intro i
  induction i with
  | zero =>
    intro j
    simp only [ssd_at, kern, spike, zero_spectrum]
    by_cases hj : (j : Int) < num_channels - 2
    · rw [if_pos hj]
      have e1 : ((j : Int) + 1 = p) ↔ ((j : Int) - p = -1) := by omega
      have e2 : ((j : Int) = p) ↔ ((j : Int) - p = 0) := by omega
      have e3 : ((j : Int) + 2 = p) ↔ ((j : Int) - p = -2) := by omega
      simp only [e1, e2, e3]
      split <;> split <;> split <;> simp <;> ring
    · rw [if_neg hj]
      have n1 : ¬ ((j : Int) - p = -1) := by omega
      have n2 : ¬ ((j : Int) - p = 0) := by omega
      have n3 : ¬ ((j : Int) - p = -2) := by omega
      simp [n1, n2, n3]
  | succ i ih =>
    intro j
    simp only [ssd_at, kern]
    rw [ih j, ih (j + 1), ih (j + 2), ih (j + 3), ih (j + 4), ih (j + 5), ih (j + 6)]
    push_cast
    have e : ∀ k : Int, (j : Int) + k - p = (j : Int) - p + k := by intro k; ring
    simp only [e]
    ring

/-- The second difference of a unit peak is given by its table. -/
theorem kern_zero_eq_table (t : Int) : kern 0 t = table_at (kern_table 0) t := by
  by_cases h1 : t < -2
  · have a : ¬ t = -1 := by omega
    have b : ¬ t = 0 := by omega
    have c : ¬ t = -2 := by omega
    simp [kern, table_at, kern_table, a, b, c, h1]
  · by_cases h2 : 0 < t
    · have a : ¬ t = -1 := by omega
      have b : ¬ t = 0 := by omega
      have c : ¬ t = -2 := by omega
      simp [kern, table_at, kern_table, a, b, c, h2]
    · have h3 : -2 ≤ t := by omega
      have h4 : t ≤ 0 := by omega
      interval_cases t <;> decide

/-- Each table is the seven-point sum of the previous one. -/
theorem table_step (i : Nat) (hi : i < 5) (t : Int) :
    table_at (kern_table i) t + table_at (kern_table i) (t + 1)
        + table_at (kern_table i) (t + 2) + table_at (kern_table i) (t + 3)
        + table_at (kern_table i) (t + 4) + table_at (kern_table i) (t + 5)
        + table_at (kern_table i) (t + 6)
      = table_at (kern_table (i + 1)) t := by
  have hlen : ∀ k : Nat, k ≤ 5 → ((kern_table k).length : Int) = 6 * k + 3 := by
    intro k hk
    interval_cases k <;> rfl
  have hz : ∀ k : Nat, k ≤ 5 → ∀ u : Int, (u < -(6 * (k : Int) + 2) ∨ 0 < u) →
      table_at (kern_table k) u = 0 := by
    intro k hk u hu
    unfold table_at
    rw [hlen k hk, if_pos (by omega)]
  by_cases h1 : t < -(6 * (i : Int) + 8)
  · rw [hz i (by omega) t (by omega), hz i (by omega) (t + 1) (by omega),
      hz i (by omega) (t + 2) (by omega), hz i (by omega) (t + 3) (by omega),
      hz i (by omega) (t + 4) (by omega), hz i (by omega) (t + 5) (by omega),
      hz i (by omega) (t + 6) (by omega), hz (i + 1) (by omega) t (by push_cast; omega)]
    rfl
  · by_cases h2 : 0 < t
    · rw [hz i (by omega) t (by omega), hz i (by omega) (t + 1) (by omega),
        hz i (by omega) (t + 2) (by omega), hz i (by omega) (t + 3) (by omega),
        hz i (by omega) (t + 4) (by omega), hz i (by omega) (t + 5) (by omega),
        hz i (by omega) (t + 6) (by omega), hz (i + 1) (by omega) t (by push_cast; omega)]
      rfl
    · have h3 : -(6 * (i : Int) + 8) ≤ t := by omega
      have h4 : t ≤ 0 := by omega
      interval_cases i <;> simp only [Nat.cast_ofNat, Nat.cast_zero, Nat.cast_one] at h3 <;>
        norm_num at h3 <;> interval_cases t <;> decide

/-- The kernel after up to five rounds is given by its table. -/
theorem kern_eq_table : ∀ (i : Nat), i ≤ 5 → ∀ t : Int, kern i t = table_at (kern_table i) t := by
  intro i
  induction i with
  | zero => intro _ t; exact kern_zero_eq_table t
  | succ i ih =>
    intro hi t
    simp only [kern]
    rw [ih (by omega) t, ih (by omega) (t + 1), ih (by omega) (t + 2), ih (by omega) (t + 3),
      ih (by omega) (t + 4), ih (by omega) (t + 5), ih (by omega) (t + 6)]
    exact table_step i (by omega) t


/-- The shape of the kernel after five rounds: non-increasing up to offset -25, where it
turns up; non-decreasing up to -16, where it turns down; non-increasing up to -7, where
it turns up; non-decreasing from there on. -/
theorem kern_five_shape :
    (∀ t : Int, t < -25 → kern 5 (t + 1) ≤ kern 5 t)
      ∧ kern 5 (-25) < kern 5 (-25 + 1)
      ∧ (∀ t : Int, -24 ≤ t → t < -16 → kern 5 t ≤ kern 5 (t + 1))
      ∧ kern 5 (-16 + 1) < kern 5 (-16)
      ∧ (∀ t : Int, -15 ≤ t → t < -7 → kern 5 (t + 1) ≤ kern 5 t)
      ∧ kern 5 (-7) < kern 5 (-7 + 1)
      ∧ (∀ t : Int, -6 ≤ t → kern 5 t ≤ kern 5 (t + 1)) := by
  have hz : ∀ u : Int, (u < -32 ∨ 0 < u) → table_at (kern_table 5) u = 0 := by
    intro u hu
    unfold table_at
    rw [if_pos (by simp only [kern_table, List.length]; omega)]
  simp only [kern_eq_table 5 (le_refl 5)]
  refine ⟨?_, by decide, ?_, by decide, ?_, by decide, ?_⟩
  · intro t ht
    by_cases h : t < -33
    · rw [hz t (by omega), hz (t + 1) (by omega)]
    · have h1 : -33 ≤ t := by omega
      have h2 : t ≤ -26 := by omega
      interval_cases t <;> decide
  · intro t h1 h2
    have h3 : t ≤ -17 := by omega
    interval_cases t <;> decide
  · intro t h1 h2
    have h3 : t ≤ -8 := by omega
    interval_cases t <;> decide
  · intro t h1
    by_cases h : 0 < t
    · rw [hz t (by omega), hz (t + 1) (by omega)]
    · have h2 : t ≤ 0 := by omega
      interval_cases t <;> decide

/-- Iterations that leave the state unchanged can be skipped. -/
theorem scan_upto_idle (smoothed : List ℚ) (st : List Int × Int) (a b : Nat) (hab : a ≤ b)
    (ha : scan_upto smoothed a = st)
    (hidle : ∀ i, a ≤ i → i < b → scan_step smoothed st i = st) :
    scan_upto smoothed b = st := by
  induction b, hab using Nat.le_induction with
  | base => exact ha
  | succ b hb ih =>
    rw [scan_upto_succ, ih (fun i h1 h2 => hidle i h1 (by omega))]
    exact hidle b hb (by omega)

/-- The sum of a single-channel peak over the odd offsets below `2m`. -/
theorem sum_spike_odd (p : Int) (h : ℚ) (m : Nat) :
    ∑ t ∈ Finset.range m, spike p h (2 * (t : Int) + 1)
      = if p % 2 = 1 ∧ 1 ≤ p ∧ p < 2 * (m : Int) then h else 0 := by
  by_cases hc : p % 2 = 1 ∧ 1 ≤ p ∧ p < 2 * (m : Int)
  · rw [if_pos hc]
    obtain ⟨a, ha, rfl⟩ : ∃ a : Nat, a < m ∧ p = 2 * (a : Int) + 1 :=
      ⟨((p - 1) / 2).toNat, by omega, by omega⟩
    have e : ∀ t : Nat, spike (2 * (a : Int) + 1) h (2 * (t : Int) + 1)
        = if t = a then h else 0 := by
      intro t
      unfold spike
      by_cases hta : t = a
      · subst hta; simp
      · have : ¬ (2 * (t : Int) + 1 = 2 * (a : Int) + 1) := by omega
        rw [if_neg this, if_neg hta]
    simp only [e]
    rw [Finset.sum_ite_eq', if_pos (Finset.mem_range.2 ha)]
  · rw [if_neg hc]
    apply Finset.sum_eq_zero
    intro t ht
    have htm := Finset.mem_range.1 ht
    unfold spike
    have : ¬ (2 * (t : Int) + 1 = p) := by
      intro hp
      apply hc
      omega
    rw [if_neg this]

/-- The sum of a single-channel peak over the even offsets from 2 to `2m`. -/
theorem sum_spike_even (p : Int) (h : ℚ) (m : Nat) :
    ∑ t ∈ Finset.range m, spike p h (2 * (t : Int) + 2)
      = if p % 2 = 0 ∧ 2 ≤ p ∧ p ≤ 2 * (m : Int) then h else 0 := by
  by_cases hc : p % 2 = 0 ∧ 2 ≤ p ∧ p ≤ 2 * (m : Int)
  · rw [if_pos hc]
    obtain ⟨a, ha, rfl⟩ : ∃ a : Nat, a < m ∧ p = 2 * (a : Int) + 2 :=
      ⟨((p - 2) / 2).toNat, by omega, by omega⟩
    have e : ∀ t : Nat, spike (2 * (a : Int) + 2) h (2 * (t : Int) + 2)
        = if t = a then h else 0 := by
      intro t
      unfold spike
      by_cases hta : t = a
      · subst hta; simp
      · have : ¬ (2 * (t : Int) + 2 = 2 * (a : Int) + 2) := by omega
        rw [if_neg this, if_neg hta]
    simp only [e]
    rw [Finset.sum_ite_eq', if_pos (Finset.mem_range.2 ha)]
  · rw [if_neg hc]
    apply Finset.sum_eq_zero
    intro t ht
    have htm := Finset.mem_range.1 ht
    unfold spike
    have : ¬ (2 * (t : Int) + 2 = p) := by
      intro hp
      apply hc
      omega
    rw [if_neg this]

/-- The area of a single-channel peak at an interior offset `p` of an even width: the
channel carries the weight 2 at an even offset and the weight 4 at an odd one. -/
theorem calc_peak_area_spike (p : Int) (h : ℚ) (m : Nat) (hm : 1 ≤ m) (hp1 : 1 ≤ p)
    (hp2 : p ≤ 2 * (m : Int)) :
    calc_peak_area (spike p h) (2 * (m : Int) + 2)
      = if p % 2 = 0 then 2 * h / 3 else 4 * h / 3 := by
  rw [calc_peak_area_even _ m hm, sum_spike_odd, sum_spike_even]
  have h0 : spike p h 0 = 0 := by
    unfold spike
    rw [if_neg (by omega)]
  have h1 : spike p h (2 * (m : Int) + 1) = 0 := by
    unfold spike
    rw [if_neg (by omega)]
  rw [h0, h1]
  by_cases hev : p % 2 = 0
  · rw [if_pos hev, if_neg (by omega), if_pos (by omega)]
    ring
  · rw [if_neg hev, if_pos (by omega), if_neg (by omega)]
    ring

/-- The result of `match_peak` depends on the spectra only through the two region areas. -/
theorem match_peak_eq_value (test reference : Int → ℚ) (left right : Int)
    (spectrum_energy threshold : ℚ) :
    match_peak test reference left right spectrum_energy threshold
      = match_value (region_area reference left right) (region_area test left right)
          spectrum_energy threshold := by
  unfold match_peak match_value region_area
  rw [region_width_eq_round_up]

/-- The constant `DBL_EPSILON` is positive. -/
theorem DBL_EPSILON_pos : (0 : ℚ) < DBL_EPSILON := by norm_num [DBL_EPSILON]

/-- When every check of `match_peak` passes, the full contribution is returned. -/
theorem match_value_accept (r t E th : ℚ) (hE : ¬ |E| < DBL_EPSILON) (ht : |t| > DBL_EPSILON)
    (hu : |r + r * th| > DBL_EPSILON) (hl : (r - r * th) / t ≤ 1 + DBL_EPSILON)
    (hh : t / (r + r * th) ≤ 1 + DBL_EPSILON) : match_value r t E th = r / E := by
  unfold match_value
  rw [if_neg hE, if_pos ht, if_pos hu]
  simp only [decide_eq_true hl, decide_eq_true hh, Bool.and_self, if_true]

/-- C16: for every region, `0 < threshold < 1` and `|spectrum_energy| >= DBL_EPSILON`, if
`rpeak*(1+threshold) > DBL_EPSILON` and the test area is below `-DBL_EPSILON`, then
`match_peak` returns the full contribution `rpeak/spectrum_energy`: a negative test area is
accepted as matching any positive reference area. -/
theorem match_peak_negative_test_area (test reference : Int → ℚ) (left right : Int)
    (spectrum_energy threshold : ℚ) (ht0 : 0 < threshold) (_ht1 : threshold < 1)
    (hE : DBL_EPSILON ≤ |spectrum_energy|)
    (hr : region_area reference left right * (1 + threshold) > DBL_EPSILON)
    (ht : region_area test left right < -DBL_EPSILON) :
    match_peak test reference left right spectrum_energy threshold
      = region_area reference left right / spectrum_energy := by
  have heps := DBL_EPSILON_pos
  rw [match_peak_eq_value]
  generalize region_area reference left right = r at hr ⊢
  generalize region_area test left right = t at ht ⊢
  have hrpos : 0 < r := by
    by_contra hneg
    have : r * (1 + threshold) ≤ 0 :=
      mul_nonpos_of_nonpos_of_nonneg (not_lt.1 hneg) (by linarith)
    linarith
  have htneg : t < 0 := by linarith
  have hub : r + r * threshold = r * (1 + threshold) := by ring
  have hlb : 0 ≤ r - r * threshold := by nlinarith
  apply match_value_accept
  · exact not_lt.2 hE
  · rw [abs_of_neg htneg]; linarith
  · rw [hub, abs_of_pos (lt_trans heps hr)]; exact hr
  · have : (r - r * threshold) / t ≤ 0 := div_nonpos_of_nonneg_of_nonpos hlb (le_of_lt htneg)
    linarith
  · have : t / (r + r * threshold) ≤ 0 := by
      rw [hub]
      exact div_nonpos_of_nonpos_of_nonneg (le_of_lt htneg) (le_of_lt (lt_trans heps hr))
    linarith

/-- The spectrum energy is `calc_peak_area` of the reference over `energy_width bins`. -/
theorem spectrum_energy_of_eq (reference : Int → ℚ) (bins : Int) :
    spectrum_energy_of reference bins = calc_peak_area reference (energy_width bins) := by
  unfold spectrum_energy_of energy_width
  split <;> rfl

/-- The width passed by `match` is even. -/
theorem energy_width_even (bins : Int) : Int.tmod (energy_width bins) 2 = 0 := by
  unfold energy_width
  by_cases h : Int.tmod bins 2 ≠ 0
  · rw [if_pos h, tmod_two_eq_zero_iff]
    have : ¬ (bins % 2 = 0) := fun h0 => h ((tmod_two_eq_zero_iff _).2 h0)
    omega
  · rw [if_neg h]
    exact not_not.1 h

/-- At a width with remainder 0 `calc_peak_area` does not take the branch returning -1. -/
theorem calc_peak_area_even_branch (channels : Int → ℚ) (width : Int)
    (hw : Int.tmod width 2 = 0) :
    calc_peak_area channels width
      = if width = 2 then (channels 0 + channels 1) / 3
        else (channels 0 + 4 * (area_loop channels width width.toNat 1 0 0).1
              + 2 * (area_loop channels width width.toNat 1 0 0).2 + channels (width - 1)) / 3 := by
  unfold calc_peak_area
  rw [if_neg (by simp [hw])]

/-- C18: for `bins > 0`, `match` calls `calc_peak_area` with `bins` rounded down to even,
and for all integers `left`, `right` (C remainder semantics) `match_peak` calls it with
`right - left` rounded up to even; both widths have remainder 0, so neither call takes
the odd-width branch that returns -1. -/
theorem calc_peak_area_called_with_even_width (test reference : Int → ℚ) (bins left right : Int)
    (spectrum_energy threshold : ℚ) (_hbins : 0 < bins) :
    (spectrum_energy_of reference bins = calc_peak_area reference (2 * (bins / 2))
        ∧ Int.tmod (2 * (bins / 2)) 2 = 0)
      ∧ (match_peak test reference left right spectrum_energy threshold
          = match_value
              (calc_peak_area (fun k => reference (left + k)) (round_up_even (right - left)))
              (calc_peak_area (fun k => test (left + k)) (round_up_even (right - left)))
              spectrum_energy threshold
        ∧ Int.tmod (round_up_even (right - left)) 2 = 0)
      ∧ ∀ (channels : Int → ℚ) (width : Int),
          (width = 2 * (bins / 2) ∨ width = round_up_even (right - left)) →
          calc_peak_area channels width
            = if width = 2 then (channels 0 + channels 1) / 3
              else (channels 0 + 4 * (area_loop channels width width.toNat 1 0 0).1
                + 2 * (area_loop channels width width.toNat 1 0 0).2
                + channels (width - 1)) / 3 := by
  have hw : energy_width bins = 2 * (bins / 2) := by
    unfold energy_width
    by_cases h : Int.tmod bins 2 ≠ 0
    · rw [if_pos h]
      have : ¬ (bins % 2 = 0) := fun h0 => h ((tmod_two_eq_zero_iff _).2 h0)
      omega
    · rw [if_neg h]
      have : bins % 2 = 0 := (tmod_two_eq_zero_iff _).1 (not_not.1 h)
      omega
  have he : Int.tmod (2 * (bins / 2)) 2 = 0 := by rw [← hw]; exact energy_width_even bins
  have hr : Int.tmod (round_up_even (right - left)) 2 = 0 := by
    rw [← region_width_eq_round_up]; exact region_width_even left right
  refine ⟨⟨?_, he⟩, ⟨?_, hr⟩, ?_⟩
  · rw [spectrum_energy_of_eq, hw]
  · exact match_peak_eq_value test reference left right spectrum_energy threshold
  · intro channels width hwidth
    apply calc_peak_area_even_branch
    rcases hwidth with h | h
    · rw [h]; exact he
    · rw [h]; exact hr


/-- A scan to the left moves at least one step when the start passes the loop test. -/
theorem stops_left_lt_start (test : Int → ℚ) (level : ℚ) (left start i : Int)
    (h : stops_left test level left start i) (hv : level ≤ test start) (hb : left ≤ start) :
    i < start := by
  rcases lt_or_eq_of_le h.1 with hlt | heq
  · exact hlt
  · exfalso
    rcases h.2.1 with hv2 | hb2
    · rw [heq] at hv2; exact absurd hv (not_le.2 hv2)
    · omega

/-- A scan to the right moves at least one step when the start passes the loop test. -/
theorem stops_right_gt_start (test : Int → ℚ) (level : ℚ) (right start j : Int)
    (h : stops_right test level right start j) (hv : level ≤ test start) (hb : start ≤ right) :
    start < j := by
  rcases lt_or_eq_of_le h.1 with hlt | heq
  · exact hlt
  · exfalso
    rcases h.2.1 with hv2 | hb2
    · rw [← heq] at hv2; exact absurd hv (not_le.2 hv2)
    · omega

/-- A scan to the left at a lower level stops no later than one at a higher level. -/
theorem stops_left_mono (test : Int → ℚ) (level level2 : ℚ) (left start i i2 : Int)
    (hle : level2 ≤ level) (h : stops_left test level left start i)
    (h2 : stops_left test level2 left start i2) : i2 ≤ i := by
  by_contra hlt
  have hk := h.2.2 i2 (by omega) h2.1
  rcases h2.2.1 with hv | hb
  · exact absurd (le_trans hle hk.1) (not_le.2 hv)
  · omega

/-- A scan to the right at a lower level stops no earlier than one at a higher level. -/
theorem stops_right_mono (test : Int → ℚ) (level level2 : ℚ) (right start j j2 : Int)
    (hle : level2 ≤ level) (h : stops_right test level right start j)
    (h2 : stops_right test level2 right start j2) : j ≤ j2 := by
  by_contra hlt
  have hk := h.2.2 j2 h2.1 (by omega)
  rcases h2.2.1 with hv | hb
  · exact absurd (le_trans hle hk.1) (not_le.2 hv)
  · omega

/-- C19: for `left <= peak <= right` and `test[peak]/10 >= DBL_EPSILON`, the widths
computed by `peak_integrity` satisfy `FWHM >= 2` and `FWTM >= FWHM`, so the branch
`fwhm == 0` is not taken. -/
theorem fwhm_at_least_two (test : Int → ℚ) (left peak right : Int) (hlp : left ≤ peak)
    (hpr : peak ≤ right) (hlarge : DBL_EPSILON ≤ test peak / 10) :
    2 ≤ fwhm_of test left peak right
      ∧ fwhm_of test left peak right ≤ fwlm_of test left peak right
      ∧ fwhm_of test left peak right ≠ 0 := by
  have heps := DBL_EPSILON_pos
  have hpos : 0 < test peak := by linarith
  have hhalf : test peak / 2 ≤ test peak := by linarith
  have hle : test peak / 10 ≤ test peak / 2 := by linarith
  obtain ⟨i, j, i2, j2, s1, s2, s3, s4, e1, e2⟩ :=
    peak_integrity_scans test left peak right (le_of_lt hpos)
  have hi := stops_left_lt_start _ _ _ _ _ s1 hhalf hlp
  have hj := stops_right_gt_start _ _ _ _ _ s2 hhalf hpr
  have hi2 := stops_left_mono _ _ _ _ _ _ _ hle s1 s3
  have hj2 := stops_right_mono _ _ _ _ _ _ _ hle s2 s4
  rw [e1, e2]
  refine ⟨by omega, by omega, by omega⟩

/-- Instance of C19 on the region `(3, 5, 7)` of a single-channel peak of height 10. -/
theorem fwhm_at_least_two_witness :
    (3 : Int) ≤ 5 ∧ (5 : Int) ≤ 7 ∧ DBL_EPSILON ≤ spike 5 10 5 / 10
      ∧ 2 ≤ fwhm_of (spike 5 10) 3 5 7
      ∧ fwhm_of (spike 5 10) 3 5 7 ≤ fwlm_of (spike 5 10) 3 5 7
      ∧ fwhm_of (spike 5 10) 3 5 7 ≠ 0 :=
  ⟨by decide, by decide, by decide!,
    fwhm_at_least_two (spike 5 10) 3 5 7 (by decide) (by decide) (by decide!)⟩

/-- C15, refuted as stated: two samples equal to 3 give the area 2, not `3 * (2 - 1)`. -/
theorem calc_peak_area_constant_width_two :
    calc_peak_area (constant_spectrum 3) 2 = 2
      ∧ ¬ (calc_peak_area (constant_spectrum 3) 2 = 3 * (((2 : Int) : ℚ) - 1)) := by
  have h : calc_peak_area (constant_spectrum 3) 2 = 2 := by
    unfold calc_peak_area constant_spectrum
    norm_num
  rw [h]
  norm_num

/-- C15, amended: for every even width `w >= 2` and every constant `c`, `calc_peak_area`
applied to `w` samples all equal to `c` returns `c * (3w - 4) / 3`. -/
theorem calc_peak_area_constant (c : ℚ) (w : Int) (hw : 2 ≤ w) (heven : w % 2 = 0) :
    calc_peak_area (constant_spectrum c) w = c * (3 * (w : ℚ) - 4) / 3 := by
  by_cases h2 : w = 2
  · subst h2
    unfold calc_peak_area constant_spectrum
    norm_num
    ring
  · obtain ⟨m, hm1, rfl⟩ : ∃ m : Nat, 1 ≤ m ∧ w = 2 * (m : Int) + 2 :=
      ⟨((w - 2) / 2).toNat, by omega, by omega⟩
    rw [calc_peak_area_even _ m hm1]
    simp only [constant_spectrum, Finset.sum_const, Finset.card_range, nsmul_eq_mul]
    push_cast
    ring

/-- Instance of the amended C15 at width 6 and constant 3. -/
theorem calc_peak_area_constant_witness :
    (2 : Int) ≤ 6 ∧ (6 : Int) % 2 = 0
      ∧ calc_peak_area (constant_spectrum 3) 6 = 3 * (3 * ((6 : Int) : ℚ) - 4) / 3 :=
  ⟨by decide, by decide, calc_peak_area_constant 3 6 (by decide) (by decide)⟩

/-- Instance of C16 on the region `(0, 2)`: reference area 1, test area -1. -/
theorem match_peak_negative_test_area_witness :
    region_area (spike 0 3) 0 2 * (1 + 1 / 10) > DBL_EPSILON
      ∧ region_area (spike 0 (-3)) 0 2 < -DBL_EPSILON
      ∧ match_peak (spike 0 (-3)) (spike 0 3) 0 2 1 (1 / 10) = region_area (spike 0 3) 0 2 / 1 :=
  ⟨by decide!, by decide!,
    match_peak_negative_test_area (spike 0 (-3)) (spike 0 3) 0 2 1 (1 / 10) (by norm_num)
      (by norm_num) (by decide!) (by decide!) (by decide!)⟩

/-- Instance of C18 at 7 bins and the region bounds 2 and 5. -/
theorem calc_peak_area_called_with_even_width_witness :
    (0 : Int) < 7
      ∧ (spectrum_energy_of ramp 7 = calc_peak_area ramp (2 * ((7 : Int) / 2))
          ∧ Int.tmod (2 * ((7 : Int) / 2)) 2 = 0)
      ∧ Int.tmod (round_up_even (5 - 2)) 2 = 0 :=
  ⟨by decide,
    (calc_peak_area_called_with_even_width ramp ramp 7 2 5 1 (1 / 10) (by decide)).1,
    (calc_peak_area_called_with_even_width ramp ramp 7 2 5 1 (1 / 10) (by decide)).2.1.2⟩

/-! ## Theorems: the scan of a single peak -/

/-- An iteration of the scan loop on a block whose entries are given by `G` compares two
neighbouring values of `G`. -/
theorem shaped_scan_step (smoothed : List ℚ) (G : Int → ℚ) (q N : Nat)
    (hs : ∀ i : Nat, i ≤ N → smoothed.getD i 0 = G ((i : Int) - q)) (i : Nat) (hi : i + 1 ≤ N)
    (st : List Int × Int) :
    scan_step smoothed st i
      = if st.2 = 0 then
          if G ((i : Int) - q) < G ((i : Int) - q + 1) then (st.1 ++ [(i : Int) + 15], 1)
          else st
        else
          if G ((i : Int) - q + 1) < G ((i : Int) - q) then (st.1 ++ [(i : Int) + 15], 0)
          else st := by
  have h15 : (ROUNDS : Int) * 3 = 15 := by simp only [ROUNDS]; norm_num
  have g0 := hs i (by omega)
  have g1 := hs (i + 1) hi
  have e1 : ((i + 1 : Nat) : Int) - (q : Int) = (i : Int) - q + 1 := by push_cast; ring
  rw [e1] at g1
  unfold scan_step
  rw [h15, g0, g1]

/-- The scan of a smoothed block of single-peak shape up to the loop index `q - 7`: the
left boundary `q - 10` and the peak `q - 1` have been written, and a minimum is sought. -/
theorem shaped_scan_before_right (smoothed : List ℚ) (G : Int → ℚ) (q N : Nat)
    (hG : single_peak_shape G)
    (hs : ∀ i : Nat, i ≤ N → smoothed.getD i 0 = G ((i : Int) - q)) (hq25 : 25 ≤ q)
    (hN : q - 7 ≤ N) :
    scan_upto smoothed (q - 7) = ([(q : Int) - 10, (q : Int) - 1], 0) := by
  obtain ⟨k1, k2, k3, k4, k5, _, _⟩ := hG
  have step := shaped_scan_step smoothed G q N hs
  have p1 : scan_upto smoothed (q - 25) = ([], 0) := by
    apply scan_upto_idle _ ([], 0) 0 (q - 25) (Nat.zero_le _) rfl
    intro i _ hi
    rw [step i (by omega)]
    have := k1 ((i : Int) - q) (by omega)
    simp only [if_true, if_neg (not_lt.2 this)]
  have p2 : scan_upto smoothed (q - 25 + 1) = ([(q : Int) - 10], 1) := by
    rw [scan_upto_succ, p1, step (q - 25) (by omega)]
    have e : ((q - 25 : Nat) : Int) - (q : Int) = -25 := by omega
    have e2 : ((q - 25 : Nat) : Int) + 15 = (q : Int) - 10 := by omega
    rw [e, e2]
    simp only [if_true, if_pos k2, List.nil_append]
  have p3 : scan_upto smoothed (q - 16) = ([(q : Int) - 10], 1) := by
    apply scan_upto_idle _ _ (q - 25 + 1) (q - 16) (by omega) p2
    intro i hi1 hi2
    rw [step i (by omega)]
    have := k3 ((i : Int) - q) (by omega) (by omega)
    simp only [if_neg (one_ne_zero : (1 : Int) ≠ 0), if_neg (not_lt.2 this)]
  have p4 : scan_upto smoothed (q - 16 + 1) = ([(q : Int) - 10, (q : Int) - 1], 0) := by
    rw [scan_upto_succ, p3, step (q - 16) (by omega)]
    have e : ((q - 16 : Nat) : Int) - (q : Int) = -16 := by omega
    have e2 : ((q - 16 : Nat) : Int) + 15 = (q : Int) - 1 := by omega
    rw [e, e2]
    simp only [if_neg (one_ne_zero : (1 : Int) ≠ 0), if_pos k4, List.singleton_append]
  apply scan_upto_idle _ _ (q - 16 + 1) (q - 7) (by omega) p4
  intro i hi1 hi2
  rw [step i (by omega)]
  have := k5 ((i : Int) - q) (by omega) (by omega)
  simp only [if_true, if_neg (not_lt.2 this)]

/-- The smoothed second difference of a single-channel peak of positive height has the
single-peak shape. -/
theorem spike_shape (h : ℚ) (hpos : 0 < h) :
    single_peak_shape (fun t => h * ((kern 5 t : Int) : ℚ)) := by
  obtain ⟨k1, k2, k3, k4, k5, k6, k7⟩ := kern_five_shape
  have hle : ∀ x y : Int, x ≤ y → h * (x : ℚ) ≤ h * (y : ℚ) := fun x y hxy =>
    mul_le_mul_of_nonneg_left (by exact_mod_cast hxy) (le_of_lt hpos)
  have hlt : ∀ x y : Int, x < y → h * (x : ℚ) < h * (y : ℚ) := fun x y hxy =>
    mul_lt_mul_of_pos_left (by exact_mod_cast hxy) hpos
  exact ⟨fun t ht => hle _ _ (k1 t ht), hlt _ _ k2, fun t h1 h2 => hle _ _ (k3 t h1 h2),
    hlt _ _ k4, fun t h1 h2 => hle _ _ (k5 t h1 h2), hlt _ _ k6, fun t h1 => hle _ _ (k7 t h1)⟩

/-- Inside the smoothed block of a single-channel peak the entries are the scaled kernel. -/
theorem spike_smoothed (q : Nat) (h : ℚ) (num_channels : Int)
    (hq : (q : Int) ≤ num_channels - 3) (i : Nat) (hi : i ≤ (num_channels - 31).toNat)
    (hn : 31 ≤ num_channels) :
    (ssd (spike q h) zero_spectrum num_channels ROUNDS).getD i 0
      = h * ((kern 5 ((i : Int) - q) : Int) : ℚ) := by
  have hR : ROUNDS = 5 := rfl
  rw [hR, ssd_getD _ _ _ 5 i (by push_cast; omega), ssd_at_spike q h num_channels hq]

/-- A single-channel peak 26 channels below the end of the spectrum: the right boundary of
its region is the loop bound itself, the final test `*ssd_current > *(ssd_current + 1)`
fails, and only the two entries `q - 10, q - 1` are written. -/
theorem find_regions_written_spike_near_end (q : Nat) (h : ℚ) (hpos : 0 < h)
    (num_channels : Int) (hq25 : 25 ≤ q) (hqn : (q : Int) + 26 = num_channels) :
    find_regions_written (spike q h) zero_spectrum num_channels
      = [(q : Int) - 10, (q : Int) - 1] := by
  have hN : (num_channels - 31).toNat = q - 5 := by omega
  have hm : (num_channels - 33).toNat = q - 7 := by omega
  have hs : ∀ i : Nat, i ≤ q - 5 →
      (ssd (spike q h) zero_spectrum num_channels ROUNDS).getD i 0
        = (fun t => h * ((kern 5 t : Int) : ℚ)) ((i : Int) - q) := by
    intro i hi
    exact spike_smoothed q h num_channels (by omega) i (by omega) (by omega)
  have hscan := shaped_scan_before_right _ _ q (q - 5) (spike_shape h hpos) hs hq25 (by omega)
  have hlast : ¬ ((ssd (spike q h) zero_spectrum num_channels ROUNDS).getD (q - 7) 0
      > (ssd (spike q h) zero_spectrum num_channels ROUNDS).getD (q - 7 + 1) 0) := by
    rw [hs (q - 7) (by omega), hs (q - 7 + 1) (by omega)]
    have e1 : ((q - 7 : Nat) : Int) - (q : Int) = -7 := by omega
    have e2 : ((q - 7 + 1 : Nat) : Int) - (q : Int) = -7 + 1 := by omega
    simp only [e1, e2]
    exact not_lt.2 (le_of_lt (spike_shape h hpos).2.2.2.2.2.1)
  have h33 : num_channels - (ROUNDS : Int) * 6 - 3 = num_channels - 33 := by
    simp only [ROUNDS]; push_cast; ring
  unfold find_regions_written
  simp only [scan_eq_scan_upto, h33, hm, hscan]
  rw [if_neg (fun hc => hlast hc.2)]


/-- C17, evaluated at two failing inputs.  With 100 bins, zero background and a reference
that is zero except for channel 74, `find_regions` writes only `64, 73`, `match` consumes
the triple `(64, 73, 0)`, `match_peak` computes the width `0 - 64 = -64`, and
`calc_peak_area(reference + 64, -64)` reads `channels[width - 1]`, i.e. `reference[-1]`.
With 1 bin, `match` calls `calc_peak_area(reference, 0)`, which reads `reference[-1]`. -/
theorem match_reads_out_of_bounds :
    find_regions (spike 74 1) zero_spectrum 100 = some (64 :: 73 :: List.replicate 98 0)
      ∧ consumed_regions (64 :: 73 :: List.replicate 98 0) = [(64, 73, 0)]
      ∧ region_width 64 0 = -64
      ∧ (-1 : Int) ∈ match_area_reads (spike 74 1) zero_spectrum 100
      ∧ (-1 : Int) ∈ match_area_reads (spike 0 1) zero_spectrum 1 := by
  have hw : find_regions_written (spike 74 1) zero_spectrum 100 = [64, 73] := by
    have h := find_regions_written_spike_near_end 74 1 (by norm_num) 100 (by decide) (by decide)
    simp only [Nat.cast_ofNat] at h
    rw [h]
    rfl
  have hfr : find_regions (spike 74 1) zero_spectrum 100
      = some (64 :: 73 :: List.replicate 98 0) := by
    unfold find_regions
    rw [if_neg (by decide), hw]
    rfl
  have hcons : consumed_regions (64 :: 73 :: List.replicate 98 0) = [(64, 73, 0)] := by
    decide
  have hE : spectrum_energy_of (spike 74 1) 100 = 2 / 3 := by
    rw [spectrum_energy_of_eq]
    have hwd : energy_width 100 = 2 * ((49 : Nat) : Int) + 2 := by decide
    rw [hwd, calc_peak_area_spike 74 1 49 (by decide) (by decide) (by decide)]
    norm_num
  have hnE : ¬ (|(2 / 3 : ℚ)| < DBL_EPSILON) := by decide!
  refine ⟨hfr, hcons, by decide, ?_, ?_⟩
  · unfold match_area_reads
    simp only [hfr, hcons, hE]
    apply List.mem_append_right
    unfold match_peak_reads
    rw [List.flatMap_cons, List.flatMap_nil, List.append_nil, if_neg hnE]
    decide
  · decide!


/-! ## Theorems: symmetric peaks of three channels -/

/-- The spectrum `cut_triangle` is a symmetric peak about channel 35, where it has its
only maximum, and is zero outside the channels 25 to 45. -/
theorem cut_triangle_symmetric_peak :
    (∀ k : Int, cut_triangle (35 + k) = cut_triangle (35 - k))
      ∧ (∀ j : Int, j ≠ 35 → cut_triangle j < cut_triangle 35)
      ∧ (∀ j : Int, j < 25 ∨ 45 < j → cut_triangle j = 0) := by
  refine ⟨?_, ?_, ?_⟩
  · intro k
    unfold cut_triangle
    have e1 : (35 + k - 35).natAbs = k.natAbs := by
      have : 35 + k - 35 = k := by ring
      rw [this]
    have e2 : (35 - k - 35).natAbs = k.natAbs := by
      have : 35 - k - 35 = -k := by ring
      rw [this, Int.natAbs_neg]
    rw [e1, e2]
    by_cases h : 25 ≤ 35 + k ∧ 35 + k ≤ 45
    · rw [if_pos h, if_pos (by omega)]
    · rw [if_neg h, if_neg (by omega)]
  · intro j hj
    have h35 : cut_triangle 35 = 30 := by
      unfold cut_triangle
      norm_num
    rw [h35]
    unfold cut_triangle
    by_cases h : 25 ≤ j ∧ j ≤ 45
    · rw [if_pos h]
      have hpos : 0 < (j - 35).natAbs := Int.natAbs_pos.2 (by omega)
      have : (0 : ℚ) < ((j - 35).natAbs : ℚ) := by exact_mod_cast hpos
      linarith
    · rw [if_neg h]
      norm_num
  · intro j hj
    unfold cut_triangle
    rw [if_neg (by omega)]

end Gamma
